import Mathlib

set_option maxRecDepth 40000

/-!
Verification of the PLY-to-splat converter (`convert_all.py`).

The Python source is shallowly embedded: the reader `parse_ply` and the
encoder `convert_to_splat` become pure Lean functions.  Machine reals are
modelled by `ℚ` (exact arithmetic); `struct.unpack` float decoders,
`struct.pack` half-precision encoding and `np.random.choice` are passed in
as explicit function parameters, since they are library primitives whose
exact values never decide the properties below.  Python exceptions become
an `Except` result; the header loop of the source, which can fail to
terminate, is reflected by an `Option` layer (`none` = the loop never
finishes) together with a fuel-indexed version of the loop.
-/

namespace ConvertAll

/-- Kinds of Python exceptions the modelled code can surface.  The code
itself only ever constructs `indexError`, `valueError` and `structError`;
`parseError` and `ioError` are included so that statements about the
error taxonomy of the spec can be written down. -/
inductive PyErr where
  | indexError
  | valueError
  | structError
  | parseError
  | ioError
  deriving DecidableEq, Repr

/-- One field of the PLY property schema: `property float` (4 bytes),
`property uchar`/`property uint8` (1 byte), `property double` (8 bytes). -/
inductive PropKind where
  | f
  | b
  | d
  deriving DecidableEq, Repr

/-- Byte width of each field kind, as `struct.calcsize` computes it for
the packed little-endian format string (no padding). -/
def propSize : PropKind → Nat
  | .f => 4
  | .b => 1
  | .d => 8

/-- Python `struct.calcsize` on the packed format string: the per-record stride. -/
def strideOf (ks : List PropKind) : Nat := (ks.map propSize).sum

/-- A value produced by `struct.unpack`: floats (`f`/`d` fields) are
Python `float`s, `B` fields are Python `int`s. -/
inductive PVal where
  | fl (x : ℚ)
  | byte (n : Nat)
  deriving DecidableEq, Repr

/-- Coercion applied by `np.array` when a record tuple is stored: every
component becomes a float. -/
def pvalToRat : PVal → ℚ
  | .fl x => x
  | .byte n => n

/-- One row of the vertex table built by `parse_ply`: the tuple
`(x, y, z, r, g, b)` as stored in the float numpy array. -/
structure Vertex where
  x : ℚ
  y : ℚ
  z : ℚ
  r : ℚ
  g : ℚ
  b : ℚ
  deriving DecidableEq, Repr

instance : Inhabited Vertex := ⟨⟨0, 0, 0, 0, 0, 0⟩⟩

/-- A line of text is a list of characters (Python header lines). -/
abbrev Line := List Char

/-- The input file: the successive lines `f.readline()` yields (with the
newline stripped), and the raw bytes that follow the header. -/
structure PlyInput where
  lines : List Line
  body : List Nat

/-- Substring test on character lists (the Python `in` test on byte strings). -/
def listInfix (pat : List Char) : List Char → Bool
  | [] => pat.isEmpty
  | c :: t => pat.isPrefixOf (c :: t) || listInfix pat t

/-- Test whether a line contains the `end_header` sentinel. -/
def containsEndHeader (l : Line) : Bool := listInfix "end_header".toList l

/-- `line.startswith(pat)`. -/
def startsWithL (pat : List Char) (l : Line) : Bool := pat.isPrefixOf l

/-- The header loop of `parse_ply` lines 11-15, with explicit fuel.
Reading past end of file yields empty lines (`f.readline()` returns
empty byte strings at EOF), which never contain the sentinel, so the loop keeps
spinning: that is the `[]` case recursing on the same empty stream. -/
def headerLoop : Nat → List Line → Option (List Line)
  | 0, _ => none
  | fuel + 1, [] => headerLoop fuel []
  | fuel + 1, l :: ls =>
    if containsEndHeader l then some [l]
    else (headerLoop fuel ls).map (l :: ·)

/-- Terminating description of what the header loop returns when it does
terminate: the prefix of lines up to and including the first line
containing `end_header`, `none` when no such line exists (in which case
the source loop never terminates). -/
def findHeader : List Line → Option (List Line)
  | [] => none
  | l :: ls =>
    if containsEndHeader l then some [l]
    else (findHeader ls).map (l :: ·)

/-- Python `str.split()` on whitespace, dropping empty pieces. -/
def splitWsAux (cur : List Char) : List Char → List (List Char)
  | [] => if cur.isEmpty then [] else [cur.reverse]
  | c :: rest =>
    if c.toNat = 32 ∨ c.toNat = 9 then
      if cur.isEmpty then splitWsAux [] rest
      else cur.reverse :: splitWsAux [] rest
    else splitWsAux (c :: cur) rest

/-- Python `line.split()`. -/
def pySplitWs (l : Line) : List (List Char) := splitWsAux [] l

/-- Decimal digit value of a character, if any. -/
def digitVal (c : Char) : Option Nat :=
  if 48 ≤ c.toNat ∧ c.toNat ≤ 57 then some (c.toNat - 48) else none

/-- Python `int(s)` restricted to unsigned decimal strings (the only
shape the claims exercise); anything else raises `ValueError`, as
`int()` does on junk. -/
def toNatL (cs : List Char) : Option Nat :=
  match cs with
  | [] => none
  | _ =>
    cs.foldl
      (fun acc c =>
        match acc, digitVal c with
        | some a, some d => some (10 * a + d)
        | _, _ => none)
      (some 0)

/-- Lines 18-22 of the source: scan the header for the first line
starting with `element vertex` and parse its last whitespace token;
`vertex_count` stays `0` when no such line exists. -/
def vertexCountOf (hdr : List Line) : Except PyErr Nat :=
  match hdr.find? (startsWithL "element vertex".toList) with
  | none => .ok 0
  | some l =>
    match toNatL ((pySplitWs l).getLastD []) with
    | some n => .ok n
    | none => .error .valueError

/-- Lines 31-38 of the source: classify each header line by prefix into
a field kind; unmatched lines contribute nothing. -/
def propsOf (hdr : List Line) : List PropKind :=
  hdr.filterMap (fun l =>
    if startsWithL "property float".toList l then some PropKind.f
    else if startsWithL "property uchar".toList l ∨ startsWithL "property uint8".toList l then
      some PropKind.b
    else if startsWithL "property double".toList l then some PropKind.d
    else none)

/-- `struct.unpack(fmt, data)`, with the 4-byte float and 8-byte double
decoders passed in as parameters. -/
def unpackVals (decF decD : List Nat → ℚ) : List PropKind → List Nat → List PVal
  | [], _ => []
  | .f :: ks, bs => .fl (decF (bs.take 4)) :: unpackVals decF decD ks (bs.drop 4)
  | .b :: ks, bs => .byte (bs.headD 0) :: unpackVals decF decD ks (bs.drop 1)
  | .d :: ks, bs => .fl (decD (bs.take 8)) :: unpackVals decF decD ks (bs.drop 8)

/-- Line 55 of the source: `[v for v in values if isinstance(v, int) and
0 <= v <= 255]`.  Only `B`-field values are Python `int`s. -/
def recordUchars (vals : List PVal) : List Nat :=
  vals.filterMap (fun v =>
    match v with
    | .byte n => if n ≤ 255 then some n else none
    | .fl _ => none)

/-- Lines 51-61 of the source: `values[0..2]` become the position
(raising `IndexError` when fewer than three values exist), the first
three filtered int values become the color, defaulting to gray. -/
def decodeRecord (vals : List PVal) : Except PyErr Vertex :=
  match vals with
  | v0 :: v1 :: v2 :: _ =>
    match recordUchars vals with
    | r :: g :: b :: _ => .ok ⟨pvalToRat v0, pvalToRat v1, pvalToRat v2, r, g, b⟩
    | _ => .ok ⟨pvalToRat v0, pvalToRat v1, pvalToRat v2, 128, 128, 128⟩
  | _ => .error .indexError

/-- Lines 44-61 of the source: the record loop.  Each iteration consumes
`strideOf ks` bytes; a short read breaks out returning what was built. -/
def readRecs (decF decD : List Nat → ℚ) (ks : List PropKind) :
    Nat → List Nat → Except PyErr (List Vertex)
  | 0, _ => .ok []
  | n + 1, body =>
    if body.length < strideOf ks then .ok []
    else
      match decodeRecord (unpackVals decF decD ks (body.take (strideOf ks))) with
      | .error e => .error e
      | .ok v =>
        match readRecs decF decD ks n (body.drop (strideOf ks)) with
        | .error e => .error e
        | .ok vs => .ok (v :: vs)

/-- `parse_ply` (lines 7-63).  `none` models the non-terminating header
loop (no line contains `end_header`); otherwise the result is the vertex
table or the Python exception raised while decoding. -/
def parse_ply (decF decD : List Nat → ℚ) (input : PlyInput) :
    Option (Except PyErr (List Vertex)) :=
  match findHeader input.lines with
  | none => none
  | some hdr =>
    some
      (match vertexCountOf hdr with
      | .error e => .error e
      | .ok vc => readRecs decF decD (propsOf hdr) vc input.body)

/-- Python `int(q)`: truncation toward zero. -/
def pyTrunc (q : ℚ) : Int := if 0 ≤ q then ⌊q⌋ else -⌊-q⌋

/-- Lines 71-76 of the source: downsample by ratio.  `np.random.choice`
is the `pick` parameter (its contract — `pick n k` is a length-`k`
duplicate-free list of indices below `n` — enters as hypotheses where a
property needs it). -/
def subsample (pick : Nat → Nat → List Nat) (vertices : List Vertex) (ratio : ℚ) :
    List Vertex :=
  let n := vertices.length
  let target := (pyTrunc ((n : ℚ) * ratio)).toNat
  if target < n then (pick n target).map (fun i => vertices.getD i default)
  else vertices

/-- Lines 80-81 of the source: subtract the per-axis mean. -/
def centerPositions (ps : List (ℚ × ℚ × ℚ)) : List (ℚ × ℚ × ℚ) :=
  let n : ℚ := ps.length
  let cx := (ps.map (fun p => p.1)).sum / n
  let cy := (ps.map (fun p => p.2.1)).sum / n
  let cz := (ps.map (fun p => p.2.2)).sum / n
  ps.map (fun p => (p.1 - cx, p.2.1 - cy, p.2.2 - cz))

/-- Line 82 of the source: `np.max(np.abs(positions))` (0 on an empty
list; the source raises before reaching this point on an empty table). -/
def maxAbsCoord (ps : List (ℚ × ℚ × ℚ)) : ℚ :=
  ps.foldr (fun p acc => max |p.1| (max |p.2.1| (max |p.2.2| acc))) 0

/-- Lines 79-84 of the source: center, then scale by `10 / max_extent`
when the extent is positive. -/
def normalizePositions (ps : List (ℚ × ℚ × ℚ)) : List (ℚ × ℚ × ℚ) :=
  let centered := centerPositions ps
  let m := maxAbsCoord centered
  if 0 < m then
    centered.map (fun p => (p.1 / m * 10, p.2.1 / m * 10, p.2.2 / m * 10))
  else centered

/-- Python `struct.pack` of an unsigned 32-bit integer: four little-endian bytes. -/
def u32le (n : Nat) : List Nat :=
  [n % 256, n / 256 % 256, n / 2 ^ 16 % 256, n / 2 ^ 24 % 256]

/-- Python `struct.pack` of a half float: two little-endian bytes of the 16-bit
pattern produced by the half-precision encoder `f16`. -/
def h16 (f16 : ℚ → Nat) (q : ℚ) : List Nat := [f16 q % 256, f16 q / 256]

/-- A vertex whose three color components are stored natural numbers
below 256 — the shape every vertex produced by `parse_ply` has. -/
def byteColors (v : Vertex) : Prop :=
  (∃ n : Nat, n ≤ 255 ∧ v.r = (n : ℚ)) ∧ (∃ n : Nat, n ≤ 255 ∧ v.g = (n : ℚ)) ∧
    (∃ n : Nat, n ≤ 255 ∧ v.b = (n : ℚ))

/-- The range condition the byte-wise `struct.pack` call imposes on the three
truncated color channels. -/
def colorGuard (v : Vertex) : Prop :=
  0 ≤ pyTrunc v.r ∧ pyTrunc v.r < 256 ∧ 0 ≤ pyTrunc v.g ∧ pyTrunc v.g < 256 ∧
    0 ≤ pyTrunc v.b ∧ pyTrunc v.b < 256

instance (v : Vertex) : Decidable (colorGuard v) := by
  unfold colorGuard; infer_instance

/-- The 10 bytes of one serialized record (x, y, z half-floats, then
r, g, b, 255). -/
def recPayload (f16 : ℚ → Nat) (v : Vertex) (p : ℚ × ℚ × ℚ) : List Nat :=
  h16 f16 p.1 ++ h16 f16 p.2.1 ++ h16 f16 p.2.2 ++
    [(pyTrunc v.r).toNat, (pyTrunc v.g).toNat, (pyTrunc v.b).toNat, 255]

/-- Lines 92-101 of the source: the 10 bytes of one record.
the byte-wise `struct.pack` call raises a struct error when a
truncated color channel falls outside the byte range. -/
def recordBytes (f16 : ℚ → Nat) (v : Vertex) (p : ℚ × ℚ × ℚ) : Except PyErr (List Nat) :=
  if colorGuard v then .ok (recPayload f16 v p) else .error .structError

/-- The record-writing loop (lines 91-101): concatenation of each
bytes of each record, aborting on the first failing record. -/
def splatBody (f16 : ℚ → Nat) : List (Vertex × (ℚ × ℚ × ℚ)) → Except PyErr (List Nat)
  | [] => .ok []
  | vp :: rest =>
    match recordBytes f16 vp.1 vp.2 with
    | .error e => .error e
    | .ok bs =>
      match splatBody f16 rest with
      | .error e => .error e
      | .ok tail => .ok (bs ++ tail)

/-- Model of `convert_to_splat` (lines 69-104).  The two guards reproduce the numpy
behavior on empty tables: `np.array([])` is one-dimensional, so slicing
`vertices[:, :3]` raises `IndexError` when the parsed table was empty
(before the output file is opened); and when subsampling empties a
non-empty table, `np.max` over a zero-size reduction raises
`ValueError`.  The `ok` payload is the byte content written to the
output file. -/
def convert_to_splat (f16 : ℚ → Nat) (pick : Nat → Nat → List Nat)
    (vertices : List Vertex) (ratio : ℚ) : Except PyErr (List Nat) :=
  let vs := subsample pick vertices ratio
  if vertices.isEmpty then .error .indexError
  else if vs.isEmpty then .error .valueError
  else
    let out := normalizePositions (vs.map (fun v => (v.x, v.y, v.z)))
    if vs.length < 2 ^ 32 then
      match splatBody f16 (vs.zip out) with
      | .error e => .error e
      | .ok body => .ok (u32le vs.length ++ body)
    else .error .structError

/-- The per-file pipeline of `main` (lines 129-130): parse, then encode.
`none` is again the non-terminating header loop. -/
def convert (decF decD : List Nat → ℚ) (f16 : ℚ → Nat) (pick : Nat → Nat → List Nat)
    (input : PlyInput) (ratio : ℚ) : Option (Except PyErr (List Nat)) :=
  match parse_ply decF decD input with
  | none => none
  | some (.error e) => some (.error e)
  | some (.ok vs) => some (convert_to_splat f16 pick vs ratio)

/-- Little-endian byte-list to natural number. -/
def bytesToNatLE (bs : List Nat) : Nat := bs.foldr (fun x acc => x + 256 * acc) 0

/-- IEEE 754 binary32 little-endian decoding for finite bit patterns
(exponent-255 patterns — infinities and NaNs — are outside every
claim).  Used to instantiate the abstract `decF` parameter on concrete
inputs. -/
def decodeF32 (bs : List Nat) : ℚ :=
  let n := bytesToNatLE bs
  let s : ℚ := if n / 2 ^ 31 % 2 = 1 then -1 else 1
  let e : Nat := n / 2 ^ 23 % 256
  let m : Nat := n % 2 ^ 23
  if e = 0 then s * (m : ℚ) / 2 ^ 149
  else s * (((2 ^ 23 + m : Nat) : ℚ) * (2 : ℚ) ^ e) / 2 ^ 150

/-- Reading of the position rule the spec gives (§4.1 step 6): the first
three decoded float-kind values, in field order.  Kept separate from the
source-derived `decodeRecord` so the two can be compared. -/
def specFloatPosition (vals : List PVal) : Option (ℚ × ℚ × ℚ) :=
  match vals.filterMap (fun v => match v with | .fl x => some x | .byte _ => none) with
  | a :: b :: c :: _ => some (a, b, c)
  | _ => none

/-- The byte-kind values of a decoded record, in field order (the
notion the spec uses in its color rule). -/
def byteKindVals (vals : List PVal) : List Nat :=
  vals.filterMap (fun v => match v with | .byte n => some n | .fl _ => none)

instance {ε α : Type} [DecidableEq ε] [DecidableEq α] : DecidableEq (Except ε α) :=
  fun a b =>
    match a, b with
    | .ok x, .ok y =>
      if h : x = y then isTrue (by rw [h]) else isFalse (by intro hc; cases hc; exact h rfl)
    | .error x, .error y =>
      if h : x = y then isTrue (by rw [h]) else isFalse (by intro hc; cases hc; exact h rfl)
    | .ok _, .error _ => isFalse (by intro hc; cases hc)
    | .error _, .ok _ => isFalse (by intro hc; cases hc)

/-- A PLY file whose schema declares a byte-kind field before the three
float position fields: schema `[uchar, float, float, float]`, one
record with byte value `7` and float values `1.0`, `2.0`, `3.0`
(little-endian IEEE 754 binary32). -/
def exInputC1 : PlyInput :=
  ⟨["ply".toList, "element vertex 1".toList, "property uchar alpha".toList,
    "property float x".toList, "property float y".toList, "property float z".toList,
    "end_header".toList],
   [7, 0, 0, 128, 63, 0, 0, 0, 64, 0, 0, 64, 64]⟩

/-- A file with no `end_header` line at all: the header loop of the source
reads to end of file and then spins on empty reads forever. -/
def exInputC2a : PlyInput :=
  ⟨["ply".toList, "element vertex 1".toList], [1, 2, 3]⟩

/-- A file whose header has `end_header` but no `element vertex` line. -/
def exInputC2b : PlyInput :=
  ⟨["ply".toList, "end_header".toList], [1, 2, 3]⟩

/-- Another header with no vertex-count line, fed to the full
parse-then-encode pipeline. -/
def exInputC9 : PlyInput :=
  ⟨["ply".toList, "comment nothing here".toList, "end_header".toList], [1, 2, 3]⟩

/-- A well-formed header declaring zero vertices. -/
def exInputC10 : PlyInput :=
  ⟨["ply".toList, "element vertex 0".toList, "property float x".toList,
    "property float y".toList, "property float z".toList, "end_header".toList], []⟩

/-- A well-formed single-vertex file: three float fields, body of 12
zero bytes (position `(0, 0, 0)`). -/
def exInputC8 : PlyInput :=
  ⟨["ply".toList, "element vertex 1".toList, "property float x".toList,
    "property float y".toList, "property float z".toList, "end_header".toList],
   [0, 0, 0, 0, 0, 0, 0, 0, 0, 0, 0, 0]⟩

/-- A file declaring two vertices whose body holds one complete record
plus three stray bytes: a truncated input. -/
def exInputC7 : PlyInput :=
  ⟨["ply".toList, "element vertex 2".toList, "property float x".toList,
    "property float y".toList, "property float z".toList, "end_header".toList],
   [0, 0, 0, 0, 0, 0, 0, 0, 0, 0, 0, 0, 9, 9, 9]⟩

/-- A one-record vertex table used to exercise the encoder on a
concrete input. -/
def wVerts : List Vertex := [⟨0, 0, 0, 10, 20, 30⟩]

/-- Its subsampled form at ratio 1. -/
def wSub : List Vertex := subsample (fun _ _ => []) wVerts 1

/-- Its normalized position list. -/
def wPos : List (ℚ × ℚ × ℚ) := normalizePositions (wSub.map (fun v => (v.x, v.y, v.z)))

/-- Output of the encoder on `wVerts` with a zero half-float encoder. -/
def wOut : List Nat := [1, 0, 0, 0, 0, 0, 0, 0, 0, 0, 10, 20, 30, 255]

/-! ## Helper lemmas about the reader -/

theorem unpackVals_length (decF decD : List Nat → ℚ) (ks : List PropKind) (bs : List Nat) :
    (unpackVals decF decD ks bs).length = ks.length := by
  induction ks generalizing bs with
  | nil => rfl
  | cons k ks ih => cases k <;> simp [unpackVals, ih]

theorem decodeRecord_ok_of_three (vals : List PVal) (h : 3 ≤ vals.length) :
    ∃ v, decodeRecord vals = Except.ok v := by
  cases vals with
  | nil => simp at h
  | cons v0 t0 =>
    cases t0 with
    | nil => simp at h
    | cons v1 t1 =>
      cases t1 with
      | nil => simp at h
      | cons v2 t2 =>
        simp only [decodeRecord]
        split <;> exact ⟨_, rfl⟩

theorem recordUchars_le (vals : List PVal) : ∀ n ∈ recordUchars vals, n ≤ 255 := by
  intro n hn
  simp only [recordUchars, List.mem_filterMap] at hn
  obtain ⟨v, _, hv⟩ := hn
  cases v with
  | fl x => simp at hv
  | byte m =>
    by_cases hm : m ≤ 255
    · simp [hm] at hv
      omega
    · simp [hm] at hv

theorem decodeRecord_byteColors (vals : List PVal) (v : Vertex)
    (h : decodeRecord vals = Except.ok v) : byteColors v := by
  cases vals with
  | nil => simp [decodeRecord] at h
  | cons v0 t0 =>
    cases t0 with
    | nil => simp [decodeRecord] at h
    | cons v1 t1 =>
      cases t1 with
      | nil => simp [decodeRecord] at h
      | cons v2 t2 =>
        simp only [decodeRecord] at h
        rcases hu : recordUchars (v0 :: v1 :: v2 :: t2) with _ | ⟨r, _ | ⟨g, _ | ⟨b, rest⟩⟩⟩ <;>
            rw [hu] at h <;> injection h with h <;> subst h
        · exact ⟨⟨128, by norm_num⟩, ⟨128, by norm_num⟩, ⟨128, by norm_num⟩⟩
        · exact ⟨⟨128, by norm_num⟩, ⟨128, by norm_num⟩, ⟨128, by norm_num⟩⟩
        · exact ⟨⟨128, by norm_num⟩, ⟨128, by norm_num⟩, ⟨128, by norm_num⟩⟩
        · refine ⟨⟨r, ?_, rfl⟩, ⟨g, ?_, rfl⟩, ⟨b, ?_, rfl⟩⟩ <;>
            apply recordUchars_le (v0 :: v1 :: v2 :: t2) <;> rw [hu]
          · exact List.mem_cons_self _ _
          · exact List.mem_cons_of_mem _ (List.mem_cons_self _ _)
          · exact List.mem_cons_of_mem _ (List.mem_cons_of_mem _ (List.mem_cons_self _ _))

theorem byteKindVals_cons_fl (x : ℚ) (t : List PVal) :
    byteKindVals (PVal.fl x :: t) = byteKindVals t := by
  simp [byteKindVals, List.filterMap_cons]

theorem byteKindVals_cons_byte (n : Nat) (t : List PVal) :
    byteKindVals (PVal.byte n :: t) = n :: byteKindVals t := by
  simp [byteKindVals, List.filterMap_cons]

theorem byteKindVals_length (decF decD : List Nat → ℚ) (ks : List PropKind) (bs : List Nat) :
    (byteKindVals (unpackVals decF decD ks bs)).length = ks.count PropKind.b := by
  induction ks generalizing bs with
  | nil => rfl
  | cons k ks ih =>
    cases k with
    | f => simpa [unpackVals, byteKindVals_cons_fl, List.count_cons] using ih (bs.drop 4)
    | b =>
      simp only [unpackVals, byteKindVals_cons_byte, List.count_cons, List.length_cons]
      simp [ih]
    | d => simpa [unpackVals, byteKindVals_cons_fl, List.count_cons] using ih (bs.drop 8)

theorem byteKindVals_unpack_le (decF decD : List Nat → ℚ) (ks : List PropKind)
    (bs : List Nat) (hb : ∀ x ∈ bs, x < 256) :
    ∀ n ∈ byteKindVals (unpackVals decF decD ks bs), n ≤ 255 := by
  induction ks generalizing bs with
  | nil => simp [unpackVals, byteKindVals]
  | cons k ks ih =>
    have hdrop : ∀ m, ∀ x ∈ bs.drop m, x < 256 := fun m x hx => hb x (List.mem_of_mem_drop hx)
    cases k with
    | f =>
      intro n hn
      simp only [unpackVals, byteKindVals, List.filterMap_cons] at hn
      exact ih _ (hdrop 4) n hn
    | d =>
      intro n hn
      simp only [unpackVals, byteKindVals, List.filterMap_cons] at hn
      exact ih _ (hdrop 8) n hn
    | b =>
      intro n hn
      simp only [unpackVals, byteKindVals, List.filterMap_cons, List.mem_cons] at hn
      rcases hn with rfl | hn
      · cases bs with
        | nil => simp
        | cons c t => exact Nat.lt_succ_iff.mp (hb c (List.mem_cons_self _ _))
      · exact ih _ (hdrop 1) n hn

theorem recordUchars_eq_byteKindVals (vals : List PVal)
    (h : ∀ n ∈ byteKindVals vals, n ≤ 255) : recordUchars vals = byteKindVals vals := by
  induction vals with
  | nil => rfl
  | cons v t ih =>
    cases v with
    | fl x =>
      simp only [recordUchars, byteKindVals, List.filterMap_cons] at h ⊢
      exact ih h
    | byte m =>
      have hm : m ≤ 255 := h m (by simp [byteKindVals, List.filterMap_cons])
      simp only [recordUchars, byteKindVals, List.filterMap_cons, hm, if_true] at h ⊢
      exact congrArg _ (ih (fun n hn => h n (List.mem_cons_of_mem _ hn)))

theorem decodeRecord_color_cases (vals : List PVal) (v : Vertex)
    (hdec : decodeRecord vals = Except.ok v) :
    (∀ r g b rest, recordUchars vals = r :: g :: b :: rest →
      v.r = (r : ℚ) ∧ v.g = (g : ℚ) ∧ v.b = (b : ℚ))
  ∧ ((recordUchars vals).length < 3 → v.r = 128 ∧ v.g = 128 ∧ v.b = 128) := by
  cases vals with
  | nil => simp [decodeRecord] at hdec
  | cons v0 t0 =>
    cases t0 with
    | nil => simp [decodeRecord] at hdec
    | cons v1 t1 =>
      cases t1 with
      | nil => simp [decodeRecord] at hdec
      | cons v2 t2 =>
        simp only [decodeRecord] at hdec
        rcases hu : recordUchars (v0 :: v1 :: v2 :: t2) with _ | ⟨r, _ | ⟨g, _ | ⟨b, rest⟩⟩⟩ <;>
            rw [hu] at hdec <;> injection hdec with hdec <;> subst hdec
        · exact ⟨fun _ _ _ _ h => by simp at h, fun _ => ⟨rfl, rfl, rfl⟩⟩
        · exact ⟨fun _ _ _ _ h => by simp at h, fun _ => ⟨rfl, rfl, rfl⟩⟩
        · exact ⟨fun _ _ _ _ h => by simp at h, fun _ => ⟨rfl, rfl, rfl⟩⟩
        · refine ⟨fun r' g' b' rest' h => ?_, fun hlen => ?_⟩
          · injection h with h1 h
            injection h with h2 h
            injection h with h3 h
            subst h1; subst h2; subst h3
            exact ⟨rfl, rfl, rfl⟩
          · simp at hlen
            omega

/-! ## Claim C1 -/

/-- C1 (amended): in every decoded record the position `(x, y, z)` is
taken from the first three decoded values in field declaration order,
of whatever kind — a byte-kind field among the first three contributes
its integer value to the position. -/
theorem position_from_first_three_values (vals : List PVal) (v : Vertex)
    (h : decodeRecord vals = Except.ok v) :
    ∃ v0 v1 v2 rest, vals = v0 :: v1 :: v2 :: rest ∧
      v.x = pvalToRat v0 ∧ v.y = pvalToRat v1 ∧ v.z = pvalToRat v2 := by
  cases vals with
  | nil => simp [decodeRecord] at h
  | cons v0 t0 =>
    cases t0 with
    | nil => simp [decodeRecord] at h
    | cons v1 t1 =>
      cases t1 with
      | nil => simp [decodeRecord] at h
      | cons v2 t2 =>
        refine ⟨v0, v1, v2, t2, rfl, ?_⟩
        simp only [decodeRecord] at h
        split at h <;> injection h with h <;> subst h <;> exact ⟨rfl, rfl, rfl⟩

theorem position_from_first_three_values_witness :
    ∃ v0 v1 v2 rest,
      ([PVal.byte 9, PVal.fl 5, PVal.fl 6, PVal.fl 7] : List PVal) = v0 :: v1 :: v2 :: rest ∧
      (⟨9, 5, 6, 128, 128, 128⟩ : Vertex).x = pvalToRat v0 ∧
      (⟨9, 5, 6, 128, 128, 128⟩ : Vertex).y = pvalToRat v1 ∧
      (⟨9, 5, 6, 128, 128, 128⟩ : Vertex).z = pvalToRat v2 :=
  position_from_first_three_values [PVal.byte 9, PVal.fl 5, PVal.fl 6, PVal.fl 7]
    ⟨9, 5, 6, 128, 128, 128⟩ (by with_unfolding_all decide)

/-- C1 (counterexample): on a schema `[uchar, float, float, float]` the
decoded position is `(7, 1, 2)` — the first three values of any kind —
while the first three float-kind values are `(1, 2, 3)`. -/
theorem position_counterexample :
    parse_ply decodeF32 decodeF32 exInputC1 =
      some (Except.ok [⟨7, 1, 2, 128, 128, 128⟩])
  ∧ specFloatPosition
        (unpackVals decodeF32 decodeF32 (propsOf exInputC1.lines) exInputC1.body) =
      some (1, 2, 3)
  ∧ ((7 : ℚ), (1 : ℚ), (2 : ℚ)) ≠ ((1 : ℚ), (2 : ℚ), (3 : ℚ)) := by
  refine ⟨by with_unfolding_all decide, by with_unfolding_all decide, by
    intro h
    injection h with h1 h
    exact absurd h1 (by norm_num)⟩

/-! ## Claim C3 -/

/-- C3: for every decoded record, the color `(r, g, b)` is the first
three byte-kind values in field declaration order, and a schema with
fewer than three byte-kind fields gives every record the color
`(128, 128, 128)`. -/
theorem color_from_first_byte_kind_values (decF decD : List Nat → ℚ) (ks : List PropKind)
    (bs : List Nat) (hb : ∀ x ∈ bs, x < 256) (v : Vertex)
    (hdec : decodeRecord (unpackVals decF decD ks bs) = Except.ok v) :
    (∀ r g b rest, byteKindVals (unpackVals decF decD ks bs) = r :: g :: b :: rest →
      v.r = (r : ℚ) ∧ v.g = (g : ℚ) ∧ v.b = (b : ℚ))
  ∧ (ks.count PropKind.b < 3 → v.r = 128 ∧ v.g = 128 ∧ v.b = 128) := by
  have hle := byteKindVals_unpack_le decF decD ks bs hb
  have heq := recordUchars_eq_byteKindVals _ hle
  have hc := decodeRecord_color_cases _ _ hdec
  rw [heq] at hc
  refine ⟨hc.1, fun hcount => hc.2 ?_⟩
  rw [byteKindVals_length decF decD ks bs]
  exact hcount

theorem color_from_first_byte_kind_values_witness :
    ((∀ r g b rest,
        byteKindVals (unpackVals (fun _ => 0) (fun _ => 0)
          [PropKind.f, PropKind.f, PropKind.f, PropKind.b, PropKind.b, PropKind.b]
          [0, 0, 0, 0, 0, 0, 0, 0, 0, 0, 0, 0, 10, 20, 30]) = r :: g :: b :: rest →
        (⟨0, 0, 0, 10, 20, 30⟩ : Vertex).r = (r : ℚ) ∧
        (⟨0, 0, 0, 10, 20, 30⟩ : Vertex).g = (g : ℚ) ∧
        (⟨0, 0, 0, 10, 20, 30⟩ : Vertex).b = (b : ℚ))
  ∧ ([PropKind.f, PropKind.f, PropKind.f, PropKind.b, PropKind.b,
        PropKind.b].count PropKind.b < 3 →
        (⟨0, 0, 0, 10, 20, 30⟩ : Vertex).r = 128 ∧
        (⟨0, 0, 0, 10, 20, 30⟩ : Vertex).g = 128 ∧
        (⟨0, 0, 0, 10, 20, 30⟩ : Vertex).b = 128)) :=
  color_from_first_byte_kind_values (fun _ => 0) (fun _ => 0)
    [PropKind.f, PropKind.f, PropKind.f, PropKind.b, PropKind.b, PropKind.b]
    [0, 0, 0, 0, 0, 0, 0, 0, 0, 0, 0, 0, 10, 20, 30]
    (by with_unfolding_all decide) ⟨0, 0, 0, 10, 20, 30⟩ (by with_unfolding_all decide)

/-! ## Claim C2 -/

theorem headerLoop_none_of_no_sentinel :
    ∀ (fuel : Nat) (lines : List Line),
      (∀ l ∈ lines, containsEndHeader l = false) → headerLoop fuel lines = none := by
  intro fuel
  induction fuel with
  | zero => intro lines _; rfl
  | succ fuel ih =>
    intro lines h
    cases lines with
    | nil => exact ih [] (by simp)
    | cons l ls =>
      have hl : containsEndHeader l = false := h l (List.mem_cons_self _ _)
      simp only [headerLoop, hl, Bool.false_eq_true, if_false]
      rw [ih ls (fun x hx => h x (List.mem_cons_of_mem _ hx))]
      rfl

theorem findHeader_none_of_no_sentinel (lines : List Line)
    (h : ∀ l ∈ lines, containsEndHeader l = false) : findHeader lines = none := by
  induction lines with
  | nil => rfl
  | cons l ls ih =>
    have hl : containsEndHeader l = false := h l (List.mem_cons_self _ _)
    simp only [findHeader, hl, Bool.false_eq_true, if_false]
    rw [ih (fun x hx => h x (List.mem_cons_of_mem _ hx))]
    rfl

/-- C2: the code does not report malformed headers.  On a file with no
`end_header` line the header loop never terminates — for every fuel
bound it is still running — so `parse_ply` has no result at all; and on
a file with `end_header` but no `element vertex` line, `parse_ply`
returns an empty vertex table with no error instead of a parse error. -/
theorem malformed_header_not_reported :
    (∀ fuel, headerLoop fuel exInputC2a.lines = none)
  ∧ parse_ply decodeF32 decodeF32 exInputC2a = none
  ∧ parse_ply decodeF32 decodeF32 exInputC2b = some (Except.ok []) := by
  refine ⟨fun fuel => headerLoop_none_of_no_sentinel fuel _ (by with_unfolding_all decide),
    ?_, by with_unfolding_all decide⟩
  simp only [parse_ply,
    findHeader_none_of_no_sentinel exInputC2a.lines (by with_unfolding_all decide)]

/-! ## Claim C7 -/

theorem strideOf_ge_length (ks : List PropKind) : ks.length ≤ strideOf ks := by
  induction ks with
  | nil => simp [strideOf]
  | cons k ks ih =>
    have h1 : 1 ≤ propSize k := by cases k <;> simp [propSize]
    simp only [strideOf, List.map_cons, List.sum_cons, List.length_cons]
    simp only [strideOf] at ih
    omega

theorem readRecs_truncated (decF decD : List Nat → ℚ) (ks : List PropKind)
    (count k r : Nat) (body : List Nat) (hks : 3 ≤ ks.length)
    (hlen : body.length = k * strideOf ks + r) (hr : r < strideOf ks) (hk : k < count) :
    ∃ vs, readRecs decF decD ks count body = Except.ok vs ∧ vs.length = k := by
  induction k generalizing count body with
  | zero =>
    obtain ⟨c, rfl⟩ : ∃ c, count = c + 1 := ⟨count - 1, by omega⟩
    have hshort : body.length < strideOf ks := by omega
    exact ⟨[], by simp [readRecs, hshort], rfl⟩
  | succ k ih =>
    obtain ⟨c, rfl⟩ : ∃ c, count = c + 1 := ⟨count - 1, by omega⟩
    rw [Nat.succ_mul] at hlen
    have hns : ¬ body.length < strideOf ks := by omega
    obtain ⟨v, hv⟩ :=
      decodeRecord_ok_of_three (unpackVals decF decD ks (body.take (strideOf ks)))
        (by rw [unpackVals_length]; exact hks)
    have hdl : (body.drop (strideOf ks)).length = k * strideOf ks + r := by
      simp only [List.length_drop]
      omega
    obtain ⟨vs, hvs, hlen'⟩ := ih c (body.drop (strideOf ks)) hdl (by omega)
    exact ⟨v :: vs, by simp [readRecs, hns, hv, hvs], by simp [hlen']⟩

/-- C7: an input whose body holds only `k < vertex_count` complete
records (plus `r` stray bytes, `r` below the stride) parses without
error into exactly the `k` complete records. -/
theorem truncated_body_yields_k_records (decF decD : List Nat → ℚ) (input : PlyInput)
    (hdr : List Line) (N k r : Nat)
    (hhdr : findHeader input.lines = some hdr)
    (hvc : vertexCountOf hdr = Except.ok N)
    (hks : 3 ≤ (propsOf hdr).length)
    (hlen : input.body.length = k * strideOf (propsOf hdr) + r)
    (hr : r < strideOf (propsOf hdr)) (hk : k < N) :
    ∃ vs, parse_ply decF decD input = some (Except.ok vs) ∧ vs.length = k := by
  obtain ⟨vs, hvs, hl⟩ := readRecs_truncated decF decD (propsOf hdr) N k r input.body
    hks hlen hr hk
  exact ⟨vs, by simp [parse_ply, hhdr, hvc, hvs], hl⟩

theorem truncated_body_yields_k_records_witness :
    ∃ vs, parse_ply (fun _ => 0) (fun _ => 0) exInputC7 = some (Except.ok vs) ∧
      vs.length = 1 :=
  truncated_body_yields_k_records (fun _ => 0) (fun _ => 0) exInputC7
    exInputC7.lines 2 1 3 (by with_unfolding_all decide) (by with_unfolding_all decide)
    (by with_unfolding_all decide) (by with_unfolding_all decide)
    (by with_unfolding_all decide) (by with_unfolding_all decide)

/-! ## Helper lemmas about the encoder -/

theorem pyTrunc_natCast (n : Nat) : pyTrunc (n : ℚ) = (n : Int) := by
  simp [pyTrunc, Int.floor_natCast, Nat.cast_nonneg]

theorem readRecs_complete (decF decD : List Nat → ℚ) (ks : List PropKind) (count : Nat)
    (body : List Nat) (hks : 3 ≤ ks.length) (hlen : count * strideOf ks ≤ body.length) :
    ∃ vs, readRecs decF decD ks count body = Except.ok vs ∧ vs.length = count := by
  induction count generalizing body with
  | zero => exact ⟨[], rfl, rfl⟩
  | succ c ih =>
    rw [Nat.succ_mul] at hlen
    have hs : 0 < strideOf ks := lt_of_lt_of_le (by omega) (strideOf_ge_length ks)
    have hns : ¬ body.length < strideOf ks := by omega
    obtain ⟨v, hv⟩ :=
      decodeRecord_ok_of_three (unpackVals decF decD ks (body.take (strideOf ks)))
        (by rw [unpackVals_length]; exact hks)
    have hdl : c * strideOf ks ≤ (body.drop (strideOf ks)).length := by
      simp only [List.length_drop]
      omega
    obtain ⟨vs, hvs, hl⟩ := ih (body.drop (strideOf ks)) hdl
    exact ⟨v :: vs, by simp [readRecs, hns, hv, hvs], by simp [hl]⟩

theorem readRecs_byteColors (decF decD : List Nat → ℚ) (ks : List PropKind) (count : Nat)
    (body : List Nat) (vs : List Vertex)
    (h : readRecs decF decD ks count body = Except.ok vs) : ∀ v ∈ vs, byteColors v := by
  induction count generalizing body vs with
  | zero =>
    injection h with h
    subst h
    simp
  | succ c ih =>
    simp only [readRecs] at h
    split at h
    · injection h with h
      subst h
      simp
    · rcases hd : decodeRecord (unpackVals decF decD ks (body.take (strideOf ks))) with e | v
      · rw [hd] at h
        simp at h
      · rw [hd] at h
        rcases ht : readRecs decF decD ks c (body.drop (strideOf ks)) with e | tl
        · rw [ht] at h
          simp at h
        · rw [ht] at h
          injection h with h
          subst h
          intro w hw
          rcases List.mem_cons.mp hw with rfl | hw
          · exact decodeRecord_byteColors _ _ hd
          · exact ih _ _ ht w hw

theorem recordBytes_ok_of_byteColors (f16 : ℚ → Nat) (v : Vertex) (p : ℚ × ℚ × ℚ)
    (h : byteColors v) : recordBytes f16 v p = Except.ok (recPayload f16 v p) := by
  obtain ⟨⟨r, hr, hvr⟩, ⟨g, hg, hvg⟩, ⟨b, hb, hvb⟩⟩ := h
  have hcg : colorGuard v := by
    unfold colorGuard
    rw [hvr, hvg, hvb, pyTrunc_natCast, pyTrunc_natCast, pyTrunc_natCast]
    refine ⟨?_, ?_, ?_, ?_, ?_, ?_⟩ <;> omega
  simp [recordBytes, hcg]

theorem recordBytes_ok_elim (f16 : ℚ → Nat) (v : Vertex) (p : ℚ × ℚ × ℚ) (bs : List Nat)
    (h : recordBytes f16 v p = Except.ok bs) : bs = recPayload f16 v p ∧ colorGuard v := by
  by_cases hcg : colorGuard v
  · simp only [recordBytes, hcg, if_true] at h
    injection h with h
    exact ⟨h.symm, hcg⟩
  · simp [recordBytes, hcg] at h

theorem splatBody_ok_of_byteColors (f16 : ℚ → Nat) (l : List (Vertex × (ℚ × ℚ × ℚ)))
    (h : ∀ vp ∈ l, byteColors vp.1) :
    splatBody f16 l = Except.ok ((l.map (fun vp => recPayload f16 vp.1 vp.2)).flatten) := by
  induction l with
  | nil => rfl
  | cons vp t ih =>
    simp only [splatBody,
      recordBytes_ok_of_byteColors f16 vp.1 vp.2 (h vp (List.mem_cons_self _ _)),
      ih (fun w hw => h w (List.mem_cons_of_mem _ hw)), List.map_cons, List.flatten_cons]

theorem splatBody_ok_elim (f16 : ℚ → Nat) (l : List (Vertex × (ℚ × ℚ × ℚ)))
    (body : List Nat) (h : splatBody f16 l = Except.ok body) :
    body = (l.map (fun vp => recPayload f16 vp.1 vp.2)).flatten ∧ ∀ vp ∈ l, colorGuard vp.1 := by
  induction l generalizing body with
  | nil =>
    injection h with h
    subst h
    simp
  | cons vp t ih =>
    simp only [splatBody] at h
    rcases hrb : recordBytes f16 vp.1 vp.2 with e | bs
    · rw [hrb] at h
      simp at h
    · rw [hrb] at h
      rcases ht : splatBody f16 t with e | tl
      · rw [ht] at h
        simp at h
      · rw [ht] at h
        injection h with h
        subst h
        obtain ⟨hbs, hg⟩ := recordBytes_ok_elim f16 vp.1 vp.2 bs hrb
        obtain ⟨htl, hgt⟩ := ih tl ht
        subst hbs
        subst htl
        refine ⟨by simp [List.map_cons, List.flatten_cons], fun w hw => ?_⟩
        rcases List.mem_cons.mp hw with rfl | hw
        · exact hg
        · exact hgt w hw

theorem recPayload_length (f16 : ℚ → Nat) (v : Vertex) (p : ℚ × ℚ × ℚ) :
    (recPayload f16 v p).length = 10 := by
  simp [recPayload, h16]

theorem join_const10_length (L : List (List Nat)) (hL : ∀ x ∈ L, x.length = 10) :
    L.flatten.length = 10 * L.length := by
  induction L with
  | nil => simp
  | cons x t ih =>
    simp only [List.flatten_cons, List.length_append, List.length_cons,
      hL x (List.mem_cons_self _ _), ih (fun y hy => hL y (List.mem_cons_of_mem _ hy))]
    omega

theorem join_const10_getD (L : List (List Nat)) (hL : ∀ x ∈ L, x.length = 10) :
    ∀ i k, i < L.length → k < 10 → L.flatten.getD (10 * i + k) 0 = (L.getD i []).getD k 0 := by
  induction L with
  | nil =>
    intro i k hi _
    simp at hi
  | cons x t ih =>
    intro i k hi hk
    have hx : x.length = 10 := hL x (List.mem_cons_self _ _)
    cases i with
    | zero =>
      simp only [List.flatten_cons, Nat.mul_zero, Nat.zero_add, List.getD_cons_zero]
      exact List.getD_append _ _ _ _ (by rw [hx]; exact hk)
    | succ i =>
      simp only [List.flatten_cons]
      rw [List.getD_append_right _ _ _ _ (by rw [hx]; omega), hx]
      have harith : 10 * (i + 1) + k - 10 = 10 * i + k := by omega
      rw [harith]
      exact ih (fun y hy => hL y (List.mem_cons_of_mem _ hy)) i k
        (by simpa using hi) hk

theorem subsample_ratio_one (pick : Nat → Nat → List Nat) (vs : List Vertex) :
    subsample pick vs 1 = vs := by
  simp [subsample, pyTrunc_natCast]

theorem u32le_length (n : Nat) : (u32le n).length = 4 := rfl

theorem normalizePositions_length (ps : List (ℚ × ℚ × ℚ)) :
    (normalizePositions ps).length = ps.length := by
  have hc : (centerPositions ps).length = ps.length := by simp [centerPositions]
  simp only [normalizePositions]
  by_cases h : 0 < maxAbsCoord (centerPositions ps)
  · rw [if_pos h, List.length_map, hc]
  · rw [if_neg h, hc]

/-! ## Claim C8 -/

/-- C8: for a well-formed input — header found, `element vertex N`
parsed, at least three declared fields, a body long enough for all `N`
records, `0 < N < 2^32` — converting with sampling ratio `1` succeeds
and writes `N` as the `point_count` in the 4-byte output header. -/
theorem roundtrip_point_count (decF decD : List Nat → ℚ) (f16 : ℚ → Nat)
    (pick : Nat → Nat → List Nat) (input : PlyInput) (hdr : List Line) (N : Nat)
    (hhdr : findHeader input.lines = some hdr)
    (hvc : vertexCountOf hdr = Except.ok N)
    (hks : 3 ≤ (propsOf hdr).length)
    (hbody : N * strideOf (propsOf hdr) ≤ input.body.length)
    (hN : 0 < N) (hN32 : N < 2 ^ 32) :
    ∃ out, convert decF decD f16 pick input 1 = some (Except.ok out) ∧
      out.take 4 = u32le N ∧ out.length = 4 + 10 * N := by
  obtain ⟨vs, hvs, hl⟩ := readRecs_complete decF decD (propsOf hdr) N input.body hks hbody
  have hparse : parse_ply decF decD input = some (Except.ok vs) := by
    simp [parse_ply, hhdr, hvc, hvs]
  have hbc : ∀ v ∈ vs, byteColors v := readRecs_byteColors decF decD _ _ _ _ hvs
  have hsub : subsample pick vs 1 = vs := subsample_ratio_one pick vs
  have hpslen : (normalizePositions (vs.map (fun v => (v.x, v.y, v.z)))).length
      = vs.length := by
    rw [normalizePositions_length, List.length_map]
  have hzf : ∀ vp ∈ vs.zip (normalizePositions (vs.map (fun v => (v.x, v.y, v.z)))),
      byteColors vp.1 := fun vp hvp => hbc vp.1 (List.of_mem_zip hvp).1
  have hbodyok := splatBody_ok_of_byteColors f16 _ hzf
  have hzl : (vs.zip (normalizePositions (vs.map (fun v => (v.x, v.y, v.z))))).length
      = N := by
    rw [List.length_zip, hpslen, hl, min_self]
  have hjl : (((vs.zip (normalizePositions (vs.map (fun v => (v.x, v.y, v.z))))).map
      (fun vp => recPayload f16 vp.1 vp.2)).flatten).length = 10 * N := by
    rw [join_const10_length _ (by
      intro x hx
      obtain ⟨vp, _, rfl⟩ := List.mem_map.mp hx
      exact recPayload_length f16 vp.1 vp.2)]
    rw [List.length_map, hzl]
  have hne : vs.isEmpty = false := by
    have : vs ≠ [] := by
      intro he
      rw [he] at hl
      simp at hl
      omega
    simp [List.isEmpty_iff, this]
  have hcts : convert_to_splat f16 pick vs 1 =
      Except.ok (u32le N ++
        ((vs.zip (normalizePositions (vs.map (fun v => (v.x, v.y, v.z))))).map
          (fun vp => recPayload f16 vp.1 vp.2)).flatten) := by
    simp only [convert_to_splat, hsub, hne, Bool.false_eq_true, if_false]
    rw [hl, if_pos hN32, hbodyok]
  refine ⟨u32le N ++
      ((vs.zip (normalizePositions (vs.map (fun v => (v.x, v.y, v.z))))).map
        (fun vp => recPayload f16 vp.1 vp.2)).flatten, ?_, ?_, ?_⟩
  · simp [convert, hparse, hcts]
  · have h4 : (4 : Nat) = (u32le N).length := (u32le_length N).symm
    rw [h4, List.take_left]
  · rw [List.length_append, u32le_length, hjl]

theorem roundtrip_point_count_witness :
    ∃ out, convert (fun _ => 0) (fun _ => 0) (fun _ => 0) (fun _ _ => []) exInputC8 1 =
      some (Except.ok out) ∧ out.take 4 = u32le 1 ∧ out.length = 4 + 10 * 1 :=
  roundtrip_point_count (fun _ => 0) (fun _ => 0) (fun _ => 0) (fun _ _ => [])
    exInputC8 exInputC8.lines 1 (by with_unfolding_all decide)
    (by with_unfolding_all decide) (by with_unfolding_all decide)
    (by with_unfolding_all decide) (by with_unfolding_all decide)
    (by with_unfolding_all decide)

/-! ## Claim C6 -/

theorem recPayload_getD (f16 : ℚ → Nat) (v : Vertex) (p : ℚ × ℚ × ℚ) :
    (recPayload f16 v p).getD 0 0 = f16 p.1 % 256 ∧
    (recPayload f16 v p).getD 1 0 = f16 p.1 / 256 ∧
    (recPayload f16 v p).getD 2 0 = f16 p.2.1 % 256 ∧
    (recPayload f16 v p).getD 3 0 = f16 p.2.1 / 256 ∧
    (recPayload f16 v p).getD 4 0 = f16 p.2.2 % 256 ∧
    (recPayload f16 v p).getD 5 0 = f16 p.2.2 / 256 ∧
    (recPayload f16 v p).getD 6 0 = (pyTrunc v.r).toNat ∧
    (recPayload f16 v p).getD 7 0 = (pyTrunc v.g).toNat ∧
    (recPayload f16 v p).getD 8 0 = (pyTrunc v.b).toNat ∧
    (recPayload f16 v p).getD 9 0 = 255 :=
  ⟨rfl, rfl, rfl, rfl, rfl, rfl, rfl, rfl, rfl, rfl⟩

theorem recPayload_mem_lt (f16 : ℚ → Nat) (v : Vertex) (p : ℚ × ℚ × ℚ)
    (hf : ∀ q, f16 q < 2 ^ 16) (hg : colorGuard v) :
    ∀ x ∈ recPayload f16 v p, x < 256 := by
  intro x hx
  obtain ⟨h1, h2, h3, h4, h5, h6⟩ := hg
  have hdiv : ∀ q, f16 q / 256 < 256 := by
    intro q
    have := hf q
    omega
  have hmod : ∀ q, f16 q % 256 < 256 := fun q => Nat.mod_lt _ (by norm_num)
  simp only [recPayload, h16, List.mem_append, List.mem_cons,
    List.not_mem_nil, or_false] at hx
  have htor : x = f16 p.1 % 256 ∨ x = f16 p.1 / 256 ∨ x = f16 p.2.1 % 256 ∨
      x = f16 p.2.1 / 256 ∨ x = f16 p.2.2 % 256 ∨ x = f16 p.2.2 / 256 ∨
      x = (pyTrunc v.r).toNat ∨ x = (pyTrunc v.g).toNat ∨ x = (pyTrunc v.b).toNat ∨
      x = 255 := by tauto
  rcases htor with h | h | h | h | h | h | h | h | h | h <;> subst h <;>
    first
      | exact hmod _
      | exact hdiv _
      | omega

/-- C6: a successful encode writes `4 + 10 × point_count` bytes: the
record count as a 32-bit little-endian integer, then per record the
three 16-bit half-float position values (little-endian), the three
truncated color bytes, and a constant fourth byte `255`. -/
theorem splat_output_layout (f16 : ℚ → Nat) (pick : Nat → Nat → List Nat)
    (vertices : List Vertex) (ratio : ℚ) (out : List Nat) (vs : List Vertex)
    (ps : List (ℚ × ℚ × ℚ))
    (hf : ∀ q, f16 q < 2 ^ 16)
    (hvs : vs = subsample pick vertices ratio)
    (hps : ps = normalizePositions (vs.map (fun v => (v.x, v.y, v.z))))
    (hok : convert_to_splat f16 pick vertices ratio = Except.ok out) :
    out.length = 4 + 10 * vs.length
  ∧ out.take 4 = u32le vs.length
  ∧ (∀ x ∈ out, x < 256)
  ∧ (∀ i, i < vs.length →
      out.getD (4 + 10 * i) 0 = f16 (ps.getD i (0, 0, 0)).1 % 256 ∧
      out.getD (4 + 10 * i + 1) 0 = f16 (ps.getD i (0, 0, 0)).1 / 256 ∧
      out.getD (4 + 10 * i + 2) 0 = f16 (ps.getD i (0, 0, 0)).2.1 % 256 ∧
      out.getD (4 + 10 * i + 3) 0 = f16 (ps.getD i (0, 0, 0)).2.1 / 256 ∧
      out.getD (4 + 10 * i + 4) 0 = f16 (ps.getD i (0, 0, 0)).2.2 % 256 ∧
      out.getD (4 + 10 * i + 5) 0 = f16 (ps.getD i (0, 0, 0)).2.2 / 256 ∧
      out.getD (4 + 10 * i + 6) 0 = (pyTrunc (vs.getD i default).r).toNat ∧
      out.getD (4 + 10 * i + 7) 0 = (pyTrunc (vs.getD i default).g).toNat ∧
      out.getD (4 + 10 * i + 8) 0 = (pyTrunc (vs.getD i default).b).toNat ∧
      out.getD (4 + 10 * i + 9) 0 = 255) := by
  subst hvs
  subst hps
  simp only [convert_to_splat] at hok
  by_cases h1 : vertices.isEmpty
  · simp [h1] at hok
  by_cases h2 : (subsample pick vertices ratio).isEmpty
  · simp [h1, h2] at hok
  simp only [h1, h2, Bool.false_eq_true, if_false] at hok
  by_cases h3 : (subsample pick vertices ratio).length < 2 ^ 32
  case neg =>
    rw [if_neg h3] at hok
    exact absurd hok (by simp)
  rw [if_pos h3] at hok
  rcases hsb : splatBody f16 ((subsample pick vertices ratio).zip
      (normalizePositions ((subsample pick vertices ratio).map (fun v => (v.x, v.y, v.z)))))
    with e | body
  · rw [hsb] at hok
    exact absurd hok (by simp)
  rw [hsb] at hok
  injection hok with hok
  obtain ⟨hbody, hguard⟩ := splatBody_ok_elim f16 _ _ hsb
  subst hbody
  subst hok
  have hzl : ((subsample pick vertices ratio).zip
      (normalizePositions ((subsample pick vertices ratio).map
        (fun v => (v.x, v.y, v.z))))).length = (subsample pick vertices ratio).length := by
    rw [List.length_zip, normalizePositions_length, List.length_map, min_self]
  have hL10 : ∀ x ∈ ((subsample pick vertices ratio).zip
      (normalizePositions ((subsample pick vertices ratio).map
        (fun v => (v.x, v.y, v.z))))).map (fun vp => recPayload f16 vp.1 vp.2),
      x.length = 10 := by
    intro x hx
    obtain ⟨vp, _, rfl⟩ := List.mem_map.mp hx
    exact recPayload_length f16 vp.1 vp.2
  have hjlen : (((subsample pick vertices ratio).zip
      (normalizePositions ((subsample pick vertices ratio).map
        (fun v => (v.x, v.y, v.z))))).map (fun vp => recPayload f16 vp.1 vp.2)).flatten.length
      = 10 * (subsample pick vertices ratio).length := by
    rw [join_const10_length _ hL10, List.length_map, hzl]
  refine ⟨?_, ?_, ?_, ?_⟩
  · rw [List.length_append, u32le_length, hjlen]
  · have h4 : (4 : Nat) = (u32le (subsample pick vertices ratio).length).length :=
      (u32le_length _).symm
    rw [h4, List.take_left]
  · intro x hx
    rcases List.mem_append.mp hx with hx | hx
    · simp only [u32le, List.mem_cons, List.mem_singleton, List.not_mem_nil, or_false] at hx
      rcases hx with h | h | h | h <;> subst h <;> exact Nat.mod_lt _ (by norm_num)
    · obtain ⟨piece, hpiece, hxp⟩ := List.mem_flatten.mp hx
      obtain ⟨vp, hvp, rfl⟩ := List.mem_map.mp hpiece
      exact recPayload_mem_lt f16 vp.1 vp.2 hf (hguard vp hvp) x hxp
  · intro i hi
    have hiz : i < ((subsample pick vertices ratio).zip
        (normalizePositions ((subsample pick vertices ratio).map
          (fun v => (v.x, v.y, v.z))))).length := by rw [hzl]; exact hi
    have hips : i < (normalizePositions ((subsample pick vertices ratio).map
        (fun v => (v.x, v.y, v.z)))).length := by
      rw [normalizePositions_length, List.length_map]; exact hi
    have hgetj : ∀ k, k < 10 →
        ((((subsample pick vertices ratio).zip
          (normalizePositions ((subsample pick vertices ratio).map
            (fun v => (v.x, v.y, v.z))))).map
          (fun vp => recPayload f16 vp.1 vp.2)).flatten).getD (10 * i + k) 0 =
        (recPayload f16 ((subsample pick vertices ratio).getD i default)
          ((normalizePositions ((subsample pick vertices ratio).map
            (fun v => (v.x, v.y, v.z)))).getD i (0, 0, 0))).getD k 0 := by
      intro k hk
      have hmaplen : i < (((subsample pick vertices ratio).zip
          (normalizePositions ((subsample pick vertices ratio).map
            (fun v => (v.x, v.y, v.z))))).map (fun vp => recPayload f16 vp.1 vp.2)).length := by
        rw [List.length_map]
        exact hiz
      rw [join_const10_getD _ hL10 i k (by rw [List.length_map, hzl]; exact hi) hk]
      rw [List.getD_eq_getElem _ _ hmaplen, List.getElem_map, List.getElem_zip,
        List.getD_eq_getElem _ _ hi, List.getD_eq_getElem _ _ hips]
    have hoff : ∀ k, k < 10 →
        ((u32le (subsample pick vertices ratio).length ++
          (((subsample pick vertices ratio).zip
            (normalizePositions ((subsample pick vertices ratio).map
              (fun v => (v.x, v.y, v.z))))).map
            (fun vp => recPayload f16 vp.1 vp.2)).flatten)).getD (4 + 10 * i + k) 0 =
        (recPayload f16 ((subsample pick vertices ratio).getD i default)
          ((normalizePositions ((subsample pick vertices ratio).map
            (fun v => (v.x, v.y, v.z)))).getD i (0, 0, 0))).getD k 0 := by
      intro k hk
      rw [List.getD_append_right _ _ _ _ (by rw [u32le_length]; omega), u32le_length]
      have harith : 4 + 10 * i + k - 4 = 10 * i + k := by omega
      rw [harith]
      exact hgetj k hk
    obtain ⟨e0, e1, e2, e3, e4, e5, e6, e7, e8, e9⟩ :=
      recPayload_getD f16 ((subsample pick vertices ratio).getD i default)
        ((normalizePositions ((subsample pick vertices ratio).map
          (fun v => (v.x, v.y, v.z)))).getD i (0, 0, 0))
    refine ⟨?_, ?_, ?_, ?_, ?_, ?_, ?_, ?_, ?_, ?_⟩
    · rw [show 4 + 10 * i = 4 + 10 * i + 0 by omega, hoff 0 (by omega), e0]
    · rw [hoff 1 (by omega), e1]
    · rw [hoff 2 (by omega), e2]
    · rw [hoff 3 (by omega), e3]
    · rw [hoff 4 (by omega), e4]
    · rw [hoff 5 (by omega), e5]
    · rw [hoff 6 (by omega), e6]
    · rw [hoff 7 (by omega), e7]
    · rw [hoff 8 (by omega), e8]
    · rw [hoff 9 (by omega), e9]

theorem splat_output_layout_witness :
    wOut.length = 4 + 10 * wSub.length
  ∧ wOut.take 4 = u32le wSub.length
  ∧ (∀ x ∈ wOut, x < 256)
  ∧ (∀ i, i < wSub.length →
      wOut.getD (4 + 10 * i) 0 = 0 % 256 ∧
      wOut.getD (4 + 10 * i + 1) 0 = 0 / 256 ∧
      wOut.getD (4 + 10 * i + 2) 0 = 0 % 256 ∧
      wOut.getD (4 + 10 * i + 3) 0 = 0 / 256 ∧
      wOut.getD (4 + 10 * i + 4) 0 = 0 % 256 ∧
      wOut.getD (4 + 10 * i + 5) 0 = 0 / 256 ∧
      wOut.getD (4 + 10 * i + 6) 0 = (pyTrunc (wSub.getD i default).r).toNat ∧
      wOut.getD (4 + 10 * i + 7) 0 = (pyTrunc (wSub.getD i default).g).toNat ∧
      wOut.getD (4 + 10 * i + 8) 0 = (pyTrunc (wSub.getD i default).b).toNat ∧
      wOut.getD (4 + 10 * i + 9) 0 = 255) :=
  splat_output_layout (fun _ => 0) (fun _ _ => []) wVerts 1 wOut wSub wPos
    (fun _ => by norm_num) rfl rfl (by with_unfolding_all decide)

/-! ## Claim C4 -/

theorem maxAbsCoord_cons (q : ℚ × ℚ × ℚ) (t : List (ℚ × ℚ × ℚ)) :
    maxAbsCoord (q :: t) = max |q.1| (max |q.2.1| (max |q.2.2| (maxAbsCoord t))) := rfl

theorem le_maxAbsCoord (ps : List (ℚ × ℚ × ℚ)) :
    ∀ p ∈ ps, |p.1| ≤ maxAbsCoord ps ∧ |p.2.1| ≤ maxAbsCoord ps ∧
      |p.2.2| ≤ maxAbsCoord ps := by
  induction ps with
  | nil => simp
  | cons q t ih =>
    intro p hp
    rw [maxAbsCoord_cons]
    rcases List.mem_cons.mp hp with rfl | hp
    · exact ⟨le_max_left _ _,
        le_trans (le_max_left _ _) (le_max_right _ _),
        le_trans (le_trans (le_max_left _ _) (le_max_right _ _)) (le_max_right _ _)⟩
    · obtain ⟨h1, h2, h3⟩ := ih p hp
      have hacc : maxAbsCoord t ≤ max |q.1| (max |q.2.1| (max |q.2.2| (maxAbsCoord t))) :=
        le_trans (le_max_right _ _) (le_trans (le_max_right _ _) (le_max_right _ _))
      exact ⟨h1.trans hacc, h2.trans hacc, h3.trans hacc⟩

/-- C4: after centering, when the maximal absolute coordinate
`max_extent` is positive every coordinate is scaled by
`10 / max_extent`, and any monotone half-precision rounding that fixes
`±10` keeps every rounded coordinate inside `[-10, 10]`; when
`max_extent` is zero the scaling step (and with it the division) is
skipped entirely and positions stay merely centered. -/
theorem normalization_bound (rnd : ℚ → ℚ)
    (hmono : ∀ a b : ℚ, a ≤ b → rnd a ≤ rnd b)
    (h10 : rnd 10 = 10) (hm10 : rnd (-10) = -10) (ps : List (ℚ × ℚ × ℚ)) :
    (0 < maxAbsCoord (centerPositions ps) →
      ∀ p ∈ normalizePositions ps,
        |rnd p.1| ≤ 10 ∧ |rnd p.2.1| ≤ 10 ∧ |rnd p.2.2| ≤ 10)
  ∧ (maxAbsCoord (centerPositions ps) = 0 →
      normalizePositions ps = centerPositions ps) := by
  constructor
  · intro hm p hp
    simp only [normalizePositions, if_pos hm] at hp
    obtain ⟨q, hq, rfl⟩ := List.mem_map.mp hp
    obtain ⟨h1, h2, h3⟩ := le_maxAbsCoord _ q hq
    have key : ∀ a : ℚ, |a| ≤ maxAbsCoord (centerPositions ps) →
        |rnd (a / maxAbsCoord (centerPositions ps) * 10)| ≤ 10 := by
      intro a ha
      have hb : |a / maxAbsCoord (centerPositions ps) * 10| ≤ 10 := by
        rw [abs_mul, abs_div, abs_of_pos hm]
        have hone : |a| / maxAbsCoord (centerPositions ps) ≤ 1 := (div_le_one hm).mpr ha
        calc |a| / maxAbsCoord (centerPositions ps) * |(10 : ℚ)| ≤ 1 * |(10 : ℚ)| :=
              mul_le_mul_of_nonneg_right hone (abs_nonneg _)
          _ = 10 := by norm_num
      have hb1 := hmono _ _ (abs_le.mp hb).2
      have hb2 := hmono _ _ (abs_le.mp hb).1
      rw [h10] at hb1
      rw [hm10] at hb2
      exact abs_le.mpr ⟨hb2, hb1⟩
    exact ⟨key _ h1, key _ h2, key _ h3⟩
  · intro hm
    simp only [normalizePositions, hm, lt_irrefl, if_false]

theorem normalization_bound_witness :
    (0 < maxAbsCoord (centerPositions [((0 : ℚ), (0 : ℚ), (0 : ℚ)), (10, 0, 0)]) →
      ∀ p ∈ normalizePositions [((0 : ℚ), (0 : ℚ), (0 : ℚ)), (10, 0, 0)],
        |id p.1| ≤ 10 ∧ |id p.2.1| ≤ 10 ∧ |id p.2.2| ≤ 10)
  ∧ (maxAbsCoord (centerPositions [((0 : ℚ), (0 : ℚ), (0 : ℚ)), (10, 0, 0)]) = 0 →
      normalizePositions [((0 : ℚ), (0 : ℚ), (0 : ℚ)), (10, 0, 0)] =
        centerPositions [((0 : ℚ), (0 : ℚ), (0 : ℚ)), (10, 0, 0)]) :=
  normalization_bound id (fun _ _ h => h) rfl rfl [((0 : ℚ), (0 : ℚ), (0 : ℚ)), (10, 0, 0)]

/-! ## Claim C5 -/

/-- C5: with `0 < ratio ≤ 1` and a selection function returning the
requested number of indices (the contract of `np.random.choice` without
replacement), the encoder keeps exactly `⌊N · ratio⌋` records when that
is below `N`, and keeps the table unchanged otherwise. -/
theorem subsample_cardinality (pick : Nat → Nat → List Nat) (vertices : List Vertex)
    (ratio : ℚ) (h0 : 0 < ratio) (h1 : ratio ≤ 1)
    (hpick : ∀ n k : Nat, (pick n k).length = k) :
    ((⌊(vertices.length : ℚ) * ratio⌋).toNat < vertices.length →
      (subsample pick vertices ratio).length = (⌊(vertices.length : ℚ) * ratio⌋).toNat)
  ∧ (¬ (⌊(vertices.length : ℚ) * ratio⌋).toNat < vertices.length →
      subsample pick vertices ratio = vertices) := by
  have hnn : 0 ≤ (vertices.length : ℚ) * ratio := mul_nonneg (Nat.cast_nonneg _) h0.le
  have htr : pyTrunc ((vertices.length : ℚ) * ratio) =
      ⌊(vertices.length : ℚ) * ratio⌋ := by
    simp [pyTrunc, hnn]
  constructor
  · intro hlt
    simp only [subsample, htr, if_pos hlt, List.length_map, hpick]
  · intro hge
    simp only [subsample, htr, if_neg hge]

theorem subsample_cardinality_witness :
    ((⌊(([default, default] : List Vertex).length : ℚ) * (1 / 2)⌋).toNat <
        ([default, default] : List Vertex).length →
      (subsample (fun _ k => List.range k) [default, default] (1 / 2)).length =
        (⌊(([default, default] : List Vertex).length : ℚ) * (1 / 2)⌋).toNat)
  ∧ (¬ (⌊(([default, default] : List Vertex).length : ℚ) * (1 / 2)⌋).toNat <
        ([default, default] : List Vertex).length →
      subsample (fun _ k => List.range k) [default, default] (1 / 2) =
        [default, default]) :=
  subsample_cardinality (fun _ k => List.range k) [default, default] (1 / 2)
    (by norm_num) (by norm_num) (fun _ k => by simp)

/-! ## Claim C9 -/

theorem vertexCountOf_ne_parseError (hdr : List Line) :
    vertexCountOf hdr ≠ Except.error PyErr.parseError := by
  unfold vertexCountOf
  split
  · simp
  · split <;> simp

theorem decodeRecord_ne_parseError (vals : List PVal) :
    decodeRecord vals ≠ Except.error PyErr.parseError := by
  unfold decodeRecord
  split
  · split <;> simp
  · simp

theorem readRecs_ne_parseError (decF decD : List Nat → ℚ) (ks : List PropKind) :
    ∀ (count : Nat) (body : List Nat),
      readRecs decF decD ks count body ≠ Except.error PyErr.parseError := by
  intro count
  induction count with
  | zero =>
    intro body
    simp [readRecs]
  | succ c ih =>
    intro body
    simp only [readRecs]
    split
    · simp
    · rcases hd : decodeRecord (unpackVals decF decD ks (body.take (strideOf ks)))
        with e | v
      · show Except.error e ≠ Except.error PyErr.parseError
        intro hcontra
        injection hcontra with hcontra
        subst hcontra
        exact decodeRecord_ne_parseError _ hd
      · rcases ht : readRecs decF decD ks c (body.drop (strideOf ks)) with e | tl
        · show Except.error e ≠ Except.error PyErr.parseError
          intro hcontra
          injection hcontra with hcontra
          subst hcontra
          exact ih _ ht
        · simp

theorem parse_ply_ne_parseError (decF decD : List Nat → ℚ) (input : PlyInput) :
    parse_ply decF decD input ≠ some (Except.error PyErr.parseError) := by
  unfold parse_ply
  split
  · simp
  · rcases hvc : vertexCountOf _ with e | vc
    · show some (Except.error e) ≠ some (Except.error PyErr.parseError)
      intro hcontra
      injection hcontra with hcontra
      injection hcontra with hcontra
      subst hcontra
      exact vertexCountOf_ne_parseError _ hvc
    · intro hcontra
      injection hcontra with hcontra
      exact readRecs_ne_parseError decF decD _ _ _ hcontra

theorem recordBytes_ne_parseError (f16 : ℚ → Nat) (v : Vertex) (p : ℚ × ℚ × ℚ) :
    recordBytes f16 v p ≠ Except.error PyErr.parseError := by
  unfold recordBytes
  split <;> simp

theorem splatBody_ne_parseError (f16 : ℚ → Nat) :
    ∀ l : List (Vertex × (ℚ × ℚ × ℚ)),
      splatBody f16 l ≠ Except.error PyErr.parseError := by
  intro l
  induction l with
  | nil => simp [splatBody]
  | cons vp t ih =>
    simp only [splatBody]
    rcases hrb : recordBytes f16 vp.1 vp.2 with e | bs
    · show Except.error e ≠ Except.error PyErr.parseError
      intro hcontra
      injection hcontra with hcontra
      subst hcontra
      exact recordBytes_ne_parseError _ _ _ hrb
    · rcases ht : splatBody f16 t with e | tl
      · show Except.error e ≠ Except.error PyErr.parseError
        intro hcontra
        injection hcontra with hcontra
        subst hcontra
        exact ih ht
      · simp

theorem convert_to_splat_ne_parseError (f16 : ℚ → Nat) (pick : Nat → Nat → List Nat)
    (vertices : List Vertex) (ratio : ℚ) :
    convert_to_splat f16 pick vertices ratio ≠ Except.error PyErr.parseError := by
  simp only [convert_to_splat]
  by_cases h1 : vertices.isEmpty
  · simp [h1]
  by_cases h2 : (subsample pick vertices ratio).isEmpty
  · simp [h1, h2]
  simp only [h1, h2, Bool.false_eq_true, if_false]
  by_cases h3 : (subsample pick vertices ratio).length < 2 ^ 32
  · rw [if_pos h3]
    rcases hsb : splatBody f16 ((subsample pick vertices ratio).zip
        (normalizePositions ((subsample pick vertices ratio).map (fun v => (v.x, v.y, v.z)))))
      with e | body
    · rw [hsb]
      show Except.error e ≠ Except.error PyErr.parseError
      intro hcontra
      injection hcontra with hcontra
      subst hcontra
      exact splatBody_ne_parseError _ _ hsb
    · rw [hsb]
      simp
  · rw [if_neg h3]
    simp

/-- C9 (amended): the core exposes `parse_ply` followed by
`convert_to_splat` rather than a single `convert` returning the point
count, and a bad header is never reported as a `ParseError`: the
pipeline never produces a `ParseError` at all; on a header with no
`end_header` line it has no result (the header loop never terminates);
and on a header with `end_header` but no `element vertex` line it
decodes an empty table and then fails with an `IndexError` while
slicing it. -/
theorem convert_error_reporting (decF decD : List Nat → ℚ) (f16 : ℚ → Nat)
    (pick : Nat → Nat → List Nat) (input : PlyInput) (ratio : ℚ) :
    convert decF decD f16 pick input ratio ≠ some (Except.error PyErr.parseError)
  ∧ ((∀ l ∈ input.lines, containsEndHeader l = false) →
      convert decF decD f16 pick input ratio = none)
  ∧ (∀ hdr, findHeader input.lines = some hdr →
      hdr.find? (startsWithL "element vertex".toList) = none →
      convert decF decD f16 pick input ratio = some (Except.error PyErr.indexError)) := by
  refine ⟨?_, ?_, ?_⟩
  · unfold convert
    split
    · simp
    · intro hcontra
      injection hcontra with hcontra
      injection hcontra with hcontra
      subst hcontra
      exact parse_ply_ne_parseError decF decD input (by assumption)
    · intro hcontra
      injection hcontra with hcontra
      exact convert_to_splat_ne_parseError f16 pick _ ratio hcontra
  · intro hno
    unfold convert
    rw [show parse_ply decF decD input = none from by
      unfold parse_ply
      rw [findHeader_none_of_no_sentinel input.lines hno]]
  · intro hdr hhdr hnv
    have hparse : parse_ply decF decD input = some (Except.ok []) := by
      simp only [parse_ply, hhdr, vertexCountOf]
      rw [hnv]
      rfl
    simp only [convert, hparse]
    simp [convert_to_splat]

theorem convert_error_reporting_witness :
    convert decodeF32 decodeF32 (fun _ => 0) (fun _ _ => [])
      ⟨["hello there".toList], []⟩ 1 = none :=
  (convert_error_reporting decodeF32 decodeF32 (fun _ => 0) (fun _ _ => [])
    ⟨["hello there".toList], []⟩ 1).2.1 (by with_unfolding_all decide)

/-- C9 (counterexample): on a header with `end_header` but no
vertex-count line — a malformed header — the pipeline fails with an
`IndexError`, not with the `ParseError` the claim promises, and it
returns no point count. -/
theorem convert_parse_error_counterexample :
    convert decodeF32 decodeF32 (fun _ => 0) (fun _ _ => []) exInputC9 (6 / 10) =
      some (Except.error PyErr.indexError)
  ∧ PyErr.indexError ≠ PyErr.parseError := by
  constructor
  · with_unfolding_all decide
  · intro hcontra
    cases hcontra

/-! ## Claim C10 -/

/-- C10: when the parsed vertex table is empty (declared
`element vertex 0`, or a body truncated before the first complete
record), the encoder raises an `IndexError` slicing the 1-dimensional
empty array — the result of the pipeline is that error, nothing is written
to the output. -/
theorem empty_table_errors_before_write (decF decD : List Nat → ℚ) (f16 : ℚ → Nat)
    (pick : Nat → Nat → List Nat) (input : PlyInput) (ratio : ℚ)
    (hparse : parse_ply decF decD input = some (Except.ok [])) :
    convert decF decD f16 pick input ratio = some (Except.error PyErr.indexError) := by
  simp only [convert, hparse]
  simp [convert_to_splat]

theorem empty_table_errors_before_write_witness :
    convert decodeF32 decodeF32 (fun _ => 0) (fun _ _ => []) exInputC10 (6 / 10) =
      some (Except.error PyErr.indexError) :=
  empty_table_errors_before_write decodeF32 decodeF32 (fun _ => 0) (fun _ _ => [])
    exInputC10 (6 / 10) (by with_unfolding_all decide)

end ConvertAll
